import Mathlib

/-!
# Verification of the smartobjects-js observable-property framework

Shallow embedding of the repository's core modules:

* `src/command.js`   — the `Command` class (guarded asynchronous actions);
* `src/datacontext.js` — the `DataContext` class (observable properties,
  change events, dependent-property re-firing, validation passes,
  error aggregation over nested components) and the module-level helpers
  `firePropertyChange`, `makeDefaultRWProperty`, `makeRWProperty`;
* the controller component (`_attachViewModel` / `_detachViewModel` guard
  against double attachment).

JavaScript values relevant to the claims are embedded as the inductive
`JSVal` (primitives only; `undefined` is a first-class value `JSVal.jsUndefined`).
The error collector (`errors.js`) is not part of the provided sources, so it
is modelled from the specification; every definition that does so says it in
its doc comment.
-/

namespace SmartObjects

/-- A JavaScript primitive value as used by the framework: `undefined`,
`null`, booleans, (integer) numbers and strings. Strict equality `===`
between these is decidable structural equality. -/
inductive JSVal where
  | jsUndefined
  | jsnull
  | vbool (b : Bool)
  | vint (n : Int)
  | vstr (s : String)
deriving DecidableEq, Repr

/-- JavaScript truthiness of an embedded primitive value
(`undefined`, `null`, `false`, `0` and `""` are falsy). -/
def JSVal.truthy : JSVal → Bool
  | .jsUndefined => false
  | .jsnull => false
  | .vbool b => b
  | .vint n => n != 0
  | .vstr s => !s.isEmpty

/-- Association-list lookup (JS object property read, first match wins). -/
def assocLookup {α : Type} : List (String × α) → String → Option α
  | [], _ => none
  | (k, v) :: rest, key => if k = key then some v else assocLookup rest key

/-- Association-list update (JS object property write): replace the first
binding of the key, or append a fresh binding. -/
def assocPut {α : Type} : List (String × α) → String → α → List (String × α)
  | [], key, v => [(key, v)]
  | (k, w) :: rest, key, v =>
      if k = key then (k, v) :: rest else (k, w) :: assocPut rest key v

/-! ## Command (`src/command.js`)

A `Command` wraps an action behind a guard predicate.  The fields embedded
here are the ones the claims are about: `_canExecute` (the configured
condition, `null`/`undefined` when absent — embedded as `Option`) and
`_isRunning`.  The condition is stored already bound to the command's
context (`_canExecute.apply(this._context, arguments)`), so it is a plain
function from the argument list to the JS value it returns. -/

/-- Command state: the configured condition predicate (`none` when the
config carried no `canExecute`) and the `_isRunning` flag. -/
structure Command where
  condition : Option (List JSVal → JSVal)
  isRunning : Bool

/-- Result handle of an action invocation, mirroring `execute`'s treatment
of the action's return value: a jQuery-style promise (`result` exposing
`always`), a plain value, or a synchronous throw. -/
inductive ActRes where
  | retPromise (resolved : Bool) (v : JSVal)
  | retPlain (v : JSVal)
  | raise (e : String)
deriving DecidableEq, Repr

/-- The in-flight result `execute`/`tryExecute` hand back: a promise that is
resolved, rejected with an error message, rejected with no arguments
(`$.Deferred().reject()`), or still pending. -/
inductive Promise where
  | resolvedP (v : JSVal)
  | rejectedP (e : Option String)
  | pendingP (resolved : Bool) (v : JSVal)
deriving DecidableEq, Repr

/-- Synchronous outcome of `execute`/`tryExecute`: either a synchronous
throw out of the method, or a returned promise. -/
inductive ExecOut where
  | threw (msg : String)
  | returned (p : Promise)
deriving DecidableEq, Repr

/-- `Command.canExecute(...args)` (`src/command.js` lines 102-109):
`if (this.isRunning) return false;` then, when a condition is configured
(`if (this._canExecute)` — a stored function is truthy, `null`/`undefined`
are falsy), return the condition applied to the arguments; otherwise
`return true`. -/
def Command.canExecute (c : Command) (args : List JSVal) : JSVal :=
  if c.isRunning then .vbool false
  else
    match c.condition with
    | some p => p args
    | none => .vbool true

/-- `Command.execute()` (`src/command.js` lines 50-76).  The guard
`if (this.canExecute.apply(this, arguments))` tests the truthiness of
`canExecute`'s result; on failure the method throws
`"Cannot execute this command now"` synchronously.  On success
`_isRunning` is set, the action is invoked, and its result is adopted as
the in-flight promise (thenable results as-is; plain values wrapped as an
already-resolved promise; a synchronous throw as an already-rejected
promise).  The asynchronous `setTimeout` finalisation is outside the
synchronous return modelled here. -/
def Command.execute (c : Command) (act : List JSVal → ActRes) (args : List JSVal) :
    Command × ExecOut :=
  if (c.canExecute args).truthy then
    let c1 : Command := { c with isRunning := true }
    match act args with
    | .retPromise r v => (c1, .returned (.pendingP r v))
    | .retPlain v => (c1, .returned (.resolvedP v))
    | .raise e => (c1, .returned (.rejectedP (some e)))
  else
    (c, .threw "Cannot execute this command now")

/-- `Command.tryExecute()` (`src/command.js` lines 87-96): evaluate
`canExecute`; when truthy delegate to `execute`, otherwise return an
already-rejected deferred (`$.Deferred(); result.reject(); result.promise()`)
without touching the action. -/
def Command.tryExecute (c : Command) (act : List JSVal → ActRes) (args : List JSVal) :
    Command × ExecOut :=
  if (c.canExecute args).truthy then
    c.execute act args
  else
    (c, .returned (.rejectedP none))

/-! ## DataContext instance state (`src/datacontext.js`)

A data-context instance is embedded as its private backing slots
(`this._name` written by the generated default accessors), its error
collector contents, the `_validating` flag, and the trace of change events
emitted so far (`this.emit(name, newValue, name, oldValue)` appends to the
trace; the listeners themselves are modelled separately for the
attach/detach claims).  The per-type property-descriptor registry
(`dataContext$properties`) is not instance state and is passed to every
operation as a parameter. -/

/-- One emitted change event: `this.emit(name, newValue, name, oldValue)`. -/
structure Event where
  name : String
  newVal : JSVal
  oldVal : JSVal
deriving DecidableEq, Repr

/-- Data-context instance state: backing slots, error collector
(key → error strings, modelled from the spec since `errors.js` is not in
the sources), the `_validating` flag and the emitted-event trace. -/
structure DC where
  slots : List (String × JSVal)
  errors : List (String × List String)
  validating : Bool
  events : List Event
deriving DecidableEq, Repr

/-- Abstracted operations of a nested component property, used by
`validate`: `this[name].isValid()` and `this[name].validate()` as seen from
the parent instance.  `cValidate` returns the updated parent state together
with the call's outcome (`Except.error` models a thrown exception, with the
state as mutated up to the throw). -/
structure CompOps where
  cIsValid : DC → Bool
  cValidate : DC → DC × Except String Bool

/-- Property descriptor as resolved by `DataContext.property(name)`:
write-ability, the `dependent` name list (`null` ≡ `[]`), the `default`
value, the optional custom accessors (`makeRWProperty` is generated only
when both `get` and `set` are present; a custom setter may throw, returning
the mutated state and the error message), and the component operations when
`property.component != null` and the slot holds a child context. -/
structure PropDesc where
  writable : Bool
  dependent : List String
  default : JSVal
  customGet : Option (DC → JSVal)
  customSet : Option (DC → JSVal → DC × Option String)
  compo : Option CompOps

/-- The per-type descriptor registry, in `_.each` iteration order. -/
abbrev Registry := List (String × PropDesc)

/-- Outcome of a state-mutating operation: normal return, a propagating
JS exception, or exhaustion of the recursion fuel (the model's rendering of
the stack overflow an unbounded dependent-property cycle would cause). -/
inductive Outcome where
  | ok
  | thrown (msg : String)
  | noFuel
deriving DecidableEq, Repr

/-- Raw read of a private backing slot `this._name`; an unset slot reads as
`undefined`. -/
def DC.rawGet (dc : DC) (name : String) : JSVal :=
  (assocLookup dc.slots name).getD .jsUndefined

/-- The generated property getter `this[name]`: custom `get` when the
descriptor has one (`makeRWProperty`/`makeReadonlyProperty`), else the
backing slot (`makeDefaultRWProperty`); in both generated getters an
`undefined` result is replaced by the descriptor's `default`.  Reading an
undeclared name yields `undefined`. -/
def getProp (R : Registry) (dc : DC) (name : String) : JSVal :=
  match assocLookup R name with
  | none => .jsUndefined
  | some d =>
      let v := match d.customGet with
               | some g => g dc
               | none => dc.rawGet name
      if v = .jsUndefined then d.default else v

mutual

/-- `DataContext.firePropertyChange(name, newValue, oldValue)`
(`src/datacontext.js` lines 35-48): a no-op while `_validating`; otherwise
emit the event, look the descriptor up, and run the dependent loop.  `fuel`
bounds the recursion depth (the JS call stack; the source recursion has no
other bound, so a dependent cycle over defined values would overflow it —
`Outcome.noFuel` renders that). -/
def fireMethod (R : Registry) : Nat → DC → String → JSVal → JSVal → DC × Outcome
  | 0, dc, _, _, _ => (dc, .noFuel)
  | f + 1, dc, name, newV, oldV =>
      if dc.validating then (dc, .ok)
      else
        let dc1 : DC := { dc with events := dc.events ++ [⟨name, newV, oldV⟩] }
        match assocLookup R name with
        | none => (dc1, .ok)
        | some d => fireDeps R f dc1 d.dependent
  termination_by structural fuel => fuel

/-- The `_.each(property.dependent, ...)` loop inside `firePropertyChange`:
for each dependent name `p` with a declared descriptor, call the
module-level helper as `firePropertyChange(this, p, this[p])` — i.e. with
`oldValue` left `undefined`. -/
def fireDeps (R : Registry) : Nat → DC → List String → DC × Outcome
  | 0, dc, _ => (dc, .noFuel)
  | f + 1, dc, ps =>
      match ps with
      | [] => (dc, .ok)
      | p :: rest =>
          match assocLookup R p with
          | none => fireDeps R f dc rest
          | some _ =>
              match helperFire R f dc p (getProp R dc p) .jsUndefined with
              | (dc', .ok) => fireDeps R f dc' rest
              | r => r
  termination_by structural fuel => fuel

/-- The module-level helper `firePropertyChange(model, name, newValue,
oldValue)` (`src/datacontext.js` lines 426-430): forward to the method only
when `oldValue !== newValue`. -/
def helperFire (R : Registry) : Nat → DC → String → JSVal → JSVal → DC × Outcome
  | 0, dc, _, _, _ => (dc, .noFuel)
  | f + 1, dc, name, newV, oldV =>
      if oldV ≠ newV then fireMethod R f dc name newV oldV else (dc, .ok)
  termination_by structural fuel => fuel

end

/-- The generated property setter for an assignment `this[name] = v`:
`makeRWProperty` (both custom accessors present) reads the old value via the
raw custom `get`, runs the custom `set` (which may throw), then calls the
helper `firePropertyChange(this, name, newValue, oldValue)`;
`makeDefaultRWProperty` (any other declared shape) reads the raw slot as the
old value, writes the slot, then calls the helper.  Assigning an undeclared
name is a plain JS property write. -/
def setProp (R : Registry) (fuel : Nat) (dc : DC) (name : String) (v : JSVal) :
    DC × Outcome :=
  match assocLookup R name with
  | none => ({ dc with slots := assocPut dc.slots name v }, .ok)
  | some d =>
      match d.customGet, d.customSet with
      | some g, some s =>
          let old := g dc
          match s dc v with
          | (dc', none) => helperFire R fuel dc' name v old
          | (dc', some e) => (dc', .thrown e)
      | _, _ =>
          let old := dc.rawGet name
          let dc' : DC := { dc with slots := assocPut dc.slots name v }
          helperFire R fuel dc' name v old

/-! ## Error collector (modelled from the spec)

`errors.js` is not among the provided sources; the collector is modelled
from the specification: a map from key to the ordered list of error
records, where absence of a key means no errors for it, `isValid(key)`
holds iff the collector has no errors for the key, the whole-entity check
holds iff no key has errors, and `clear(key)`/`clear()` remove the entries
for the key / for all keys. -/

/-- Modelled from the spec: the error records the collector holds for a
key (absent key ⇒ no errors). -/
def errsOf (es : List (String × List String)) (k : String) : List String :=
  (assocLookup es k).getD []

/-- Modelled from the spec: `Errors.isValid(key)` for a present key —
no errors recorded under `key`. -/
def errIsValidKey (es : List (String × List String)) (k : String) : Bool :=
  (errsOf es k).isEmpty

/-- Modelled from the spec: `Errors.isValid()` for the whole entity — no
key has any error recorded. -/
def errIsValidAll (es : List (String × List String)) : Bool :=
  es.all (fun kv => kv.2.isEmpty)

/-- `this.isValid(name)` as called with a key from inside `validate`
(`src/datacontext.js` lines 101-113): with a key present the method returns
the collector's verdict alone (the component walk is guarded by
`key == null`). -/
def DC.keyIsValid (dc : DC) (name : String) : Bool :=
  errIsValidKey dc.errors name

/-- `DataContext.reset(newData)` (`src/datacontext.js` lines 54-61): for
every descriptor in iteration order, when `property.writable`, assign
`this[name] = newData[name] || property.default` — the `||` falls back to
the default whenever `newData[name]` is falsy, which covers both an absent
key (`undefined`) and present falsy values.  A JS exception from a setter
aborts the `_.each` walk and propagates. -/
def resetLoop (R : Registry) (fuel : Nat) :
    List (String × PropDesc) → DC → List (String × JSVal) → DC × Outcome
  | [], dc, _ => (dc, .ok)
  | (name, d) :: rest, dc, newData =>
      if d.writable then
        let supplied := (assocLookup newData name).getD .jsUndefined
        let v := if supplied.truthy then supplied else d.default
        match setProp R fuel dc name v with
        | (dc', .ok) => resetLoop R fuel rest dc' newData
        | r => r
      else
        resetLoop R fuel rest dc newData

/-- `DataContext.reset(newData)` over the full registry; `reset()` with no
argument is `reset R fuel dc []`. -/
def reset (R : Registry) (fuel : Nat) (dc : DC) (newData : List (String × JSVal)) :
    DC × Outcome :=
  resetLoop R fuel R dc newData

/-! ## validate (`src/datacontext.js` lines 161-192) -/

/-- Result of `validate`: the boolean it returns, a propagating exception
(re-thrown after the `finally` block ran), or fuel exhaustion. -/
inductive VOut where
  | ret (valid : Bool)
  | thrown (msg : String)
  | noFuel
deriving DecidableEq, Repr

/-- The `_.each(this.properties(), ...)` body of `validate`: component
properties compare the child's validity and the keyed validity before and
after `this[name].validate()`; writable properties re-assign
`this[name] = this[name]` through the generated setter; names whose
validity changed are accumulated in `changedProps`.  A thrown exception
aborts the walk, carrying the state as mutated so far. -/
def validateLoop (R : Registry) (fuel : Nat) :
    List (String × PropDesc) → DC → List String → DC × List String × Outcome
  | [], dc, ch => (dc, ch, .ok)
  | (name, _) :: rest, dc, ch =>
      match assocLookup R name with
      | none => validateLoop R fuel rest dc ch
      | some desc =>
          match desc.compo with
          | some ops =>
              let validComponent := ops.cIsValid dc
              let validProp := dc.keyIsValid name
              match ops.cValidate dc with
              | (dc', .error e) => (dc', ch, .thrown e)
              | (dc', .ok ret) =>
                  let ch' := if validComponent != ret || validProp != dc'.keyIsValid name
                             then ch ++ [name] else ch
                  validateLoop R fuel rest dc' ch'
          | none =>
              if desc.writable then
                let valid := dc.keyIsValid name
                match setProp R fuel dc name (getProp R dc name) with
                | (dc', .ok) =>
                    let ch' := if valid != dc'.keyIsValid name then ch ++ [name] else ch
                    validateLoop R fuel rest dc' ch'
                | (dc', bad) => (dc', ch, bad)
              else
                validateLoop R fuel rest dc ch

/-- The `_.each(changedProps, ...)` in `validate`'s `finally` block: for
each recorded name, `var val = this[name]; this.firePropertyChange(name,
val, val)` — the current value fired as both the new and the old value. -/
def fireChanged (R : Registry) (fuel : Nat) :
    List String → DC → DC × Outcome
  | [], dc => (dc, .ok)
  | n :: rest, dc =>
      let v := getProp R dc n
      match fireMethod R fuel dc n v v with
      | (dc', .ok) => fireChanged R fuel rest dc'
      | r => r

/-- `this.isValid()` with no key, as returned by `validate`
(`src/datacontext.js` lines 101-113 over the flat model): the collector
verdict, and then `_.every` over the descriptors, where each component
property contributes `this[name].isValid()` and everything else
contributes `true`. -/
def flatIsValidRoot (R : Registry) (dc : DC) : Bool :=
  errIsValidAll dc.errors &&
    R.all (fun nd => match nd.2.compo with
                     | some ops => ops.cIsValid dc
                     | none => true)

/-- `DataContext.validate()` (`src/datacontext.js` lines 161-192):
`this._validating = true` inside the `try`; the property walk; then the
`finally` block sets `this._validating = false` and re-fires the changed
properties — on every exit path, including a mid-pass throw, after which
the exception propagates; on normal exit the method returns
`this.isValid()`. -/
def validate (R : Registry) (fuel : Nat) (dc : DC) : DC × VOut :=
  let dc0 : DC := { dc with validating := true }
  match validateLoop R fuel R dc0 [] with
  | (dc1, ch, out) =>
      let dc2 : DC := { dc1 with validating := false }
      match fireChanged R fuel ch dc2 with
      | (dc3, .ok) =>
          match out with
          | .ok => (dc3, .ret (flatIsValidRoot R dc3))
          | .thrown e => (dc3, .thrown e)
          | .noFuel => (dc3, .noFuel)
      | (dc3, .thrown e) => (dc3, .thrown e)
      | (dc3, .noFuel) => (dc3, .noFuel)

/-! ## Nested-component tree (`isValid` / `clearErrors` / `hasErrors`)

For the recursive aggregation claims a data context is embedded as a tree:
its own error-collector contents plus its descriptor list, where each entry
records the name, whether `property.component != null`, and — when the
instance's slot for the name holds a child data context (so
`_.isFunction(this[name].isValid)` / `.clearErrors` hold) — that child.
`none` in the child position covers any non-context slot value, for which
the `_.isFunction` guards fail and the entry trivially passes. -/

/-- A data context with its nested component children.  `props` is the
descriptor list in `_.each` iteration order: name, `component != null`
flag, and the child context when the slot holds one. -/
inductive CtxT where
  | mk (errs : List (String × List String))
       (props : List (String × Bool × Option CtxT))
deriving Repr

/-- Own error-collector contents of a tree node. -/
def CtxT.errList : CtxT → List (String × List String)
  | .mk es _ => es

/-- Descriptor list of a tree node. -/
def CtxT.propList : CtxT → List (String × Bool × Option CtxT)
  | .mk _ ps => ps

/-- The component child stored under a name, when the entry is a component
property holding a child context. -/
def getChild (c : CtxT) (name : String) : Option CtxT :=
  match assocLookup c.propList name with
  | some (true, some child) => some child
  | _ => none

mutual

/-- `DataContext.isValid()` with no key (`src/datacontext.js` lines
101-113): the collector verdict and, only when it holds, `_.every` over the
descriptors where each component property with a context-valued slot
contributes `this[name].isValid()` (recursively) and every other entry
contributes `true`. -/
def CtxT.isValidRoot : CtxT → Bool
  | .mk es props => errIsValidAll es && childrenValid props

/-- The `_.every(this.properties(), ...)` walk of `isValid()`. -/
def childrenValid : List (String × Bool × Option CtxT) → Bool
  | [] => true
  | (_, isComp, oc) :: rest =>
      (if isComp then
        match oc with
        | some child => child.isValidRoot
        | none => true
      else true) && childrenValid rest

end

/-- `DataContext.isValid(key)` (`src/datacontext.js` lines 101-113): with a
key the collector verdict alone; with no key the recursive aggregate. -/
def CtxT.isValid (c : CtxT) : Option String → Bool
  | some k => errIsValidKey c.errList k
  | none => c.isValidRoot

/-- `DataContext.hasErrors(key)` (`src/datacontext.js` lines 92-94):
`return !this.isValid(key)`. -/
def CtxT.hasErrors (c : CtxT) (k : Option String) : Bool :=
  !(c.isValid k)

mutual

/-- `DataContext.clearErrors()` with no key (`src/datacontext.js` lines
129-140): `this._errors.clear(key)` empties the whole collector (modelled
from the spec), then the component walk — written with `_.every`, whose
iteration stops at the first falsy callback result.  The callback returns
`this[name].clearErrors()` for a component property with a context-valued
slot, and `clearErrors` returns `undefined`, which is falsy: the walk
stops right after the first such component. -/
def CtxT.clearErrorsRoot : CtxT → CtxT
  | .mk _ props => .mk [] (clearChildren props)

/-- The `_.every(this.properties(), ...)` walk of `clearErrors()`: clear
the first component child encountered, then stop (the callback returned
`undefined`); all other entries return `true` and the walk continues. -/
def clearChildren : List (String × Bool × Option CtxT) →
    List (String × Bool × Option CtxT)
  | [] => []
  | (n, true, some child) :: rest => (n, true, some child.clearErrorsRoot) :: rest
  | (n, isComp, oc) :: rest => (n, isComp, oc) :: clearChildren rest

end

/-! ## attach / detach and the controller's double-attach guard

`DataContext.attach(update)` subscribes the listener to the change event of
every declared property name and `detach` unsubscribes it
(`src/datacontext.js` lines 204-219).  The underlying emitter is the
external `micro-events` dependency; its subscription behaviour is modelled
from the spec's subscribe contract: `on` appends a `(eventName, listener)`
subscription, `off` removes that listener's subscriptions for the name, and
emitting an event for a name invokes each subscribed listener once per
subscription.  Listeners are identified by a numeric id. -/

/-- Modelled from the spec: the emitter's subscription list —
`(eventName, listenerId)` pairs in subscription order. -/
structure Emitter where
  subs : List (String × Nat)
deriving DecidableEq, Repr

/-- Modelled from the spec: `emitter.on(name, listener)` appends a
subscription. -/
def Emitter.on (em : Emitter) (name : String) (l : Nat) : Emitter :=
  ⟨em.subs ++ [(name, l)]⟩

/-- Modelled from the spec: `emitter.off(name, listener)` removes that
listener's subscriptions for the event name. -/
def Emitter.off (em : Emitter) (name : String) (l : Nat) : Emitter :=
  ⟨em.subs.filter (fun s => !(s.1 = name && s.2 = l))⟩

/-- Modelled from the spec: the listeners an emitted event for `name`
reaches, one entry per matching subscription. -/
def Emitter.deliveries (em : Emitter) (name : String) : List Nat :=
  (em.subs.filter (fun s => s.1 = name)).map (fun s => s.2)

/-- `DataContext.attach(update)` (`src/datacontext.js` lines 204-209):
`this.on(name, update)` for every declared property name. -/
def dcAttach (props : List String) (em : Emitter) (l : Nat) : Emitter :=
  props.foldl (fun e name => e.on name l) em

/-- `DataContext.detach(listener)` (`src/datacontext.js` lines 215-219):
`this.off(name, listener)` for every declared property name. -/
def dcDetach (props : List String) (em : Emitter) (l : Nat) : Emitter :=
  props.foldl (fun e name => e.off name l) em

/-- Controller state relevant to the double-attach guard: the listener
token from the last successful attach (`this.modelListener`), and the view
model's emitter. -/
structure Ctrl where
  modelListener : Option Nat
  em : Emitter
deriving DecidableEq, Repr

/-- `Controller._attachViewModel` (controller source lines 115-125): when
`this.modelListener == null`, attach a fresh listener through
`DataContext.attach` and remember it; otherwise only warn
("Attaching already attached controller") and change nothing.  The
`clearErrors`/`update` calls of the first branch do not touch the
subscription state modelled here. -/
def attachViewModel (props : List String) (c : Ctrl) (l : Nat) : Ctrl :=
  match c.modelListener with
  | none => { modelListener := some l, em := dcAttach props c.em l }
  | some _ => c

/-- `Controller._detachViewModel` (controller source lines 127-132): when a
listener is attached, detach it from every property and forget it. -/
def detachViewModel (props : List String) (c : Ctrl) : Ctrl :=
  match c.modelListener with
  | some l => { modelListener := none, em := dcDetach props c.em l }
  | none => c

/-! ## Derived notions and concrete fixtures -/

/-- The component children the `_.every` walks of `isValid`/`clearErrors`
can reach: entries with `component != null` whose slot holds a child
context. -/
def componentChildren (ps : List (String × Bool × Option CtxT)) : List CtxT :=
  ps.filterMap (fun e => if e.2.1 then e.2.2 else none)

/-- What a `firePropertyChange` cascade can change: it only appends to the
event trace, leaving slots, errors and the `_validating` flag alone. -/
def FireInv (dc dc' : DC) : Prop :=
  dc'.slots = dc.slots ∧ dc'.validating = dc.validating ∧
  dc'.errors = dc.errors ∧ ∃ t, dc'.events = dc.events ++ t

/-- A fresh data-context instance with no slots, no errors, not
validating, and an empty event trace. -/
def dcEmpty : DC := ⟨[], [], false, []⟩

/-- Fixture: a command whose configured condition always returns `false`. -/
def cmdFalse : Command := ⟨some (fun _ => .vbool false), false⟩

/-- Fixture: a command with no condition that is currently running. -/
def cmdRunning : Command := ⟨none, true⟩

/-- Fixture: a non-running command whose condition inspects its
arguments. -/
def cmdCond : Command := ⟨some (fun args => .vbool args.isEmpty), false⟩

/-- Fixture: a non-running command with no configured condition. -/
def cmdFree : Command := ⟨none, false⟩

/-- Fixture: an action returning a plain (non-thenable) value. -/
def actPlain : List JSVal → ActRes := fun _ => .retPlain .jsUndefined

/-- Fixture registry: `a` declares dependents `b` and `c`; `b` is a
default-RW property with default `7`; `c` defaults to `undefined`. -/
def Rdep : Registry :=
  [("a", ⟨true, ["b", "c"], .jsUndefined, none, none, none⟩),
   ("b", ⟨true, [], .vint 7, none, none, none⟩),
   ("c", ⟨true, [], .jsUndefined, none, none, none⟩)]

/-- Fixture instance for `Rdep`: `b`'s backing slot holds `7`. -/
def dcDep : DC := ⟨[("b", .vint 7)], [], false, []⟩

/-- Fixture registry: a single writable default-RW property `p` with
default `5`. -/
def Rp : Registry := [("p", ⟨true, [], .vint 5, none, none, none⟩)]

/-- Fixture registry: a writable custom-RW property whose setter throws. -/
def Rbad : Registry :=
  [("p", ⟨true, [], .jsUndefined, some (fun _ => .jsUndefined),
          some (fun dcx _ => (dcx, some "boom")), none⟩)]

/-- Fixture instance whose `_validating` flag is set. -/
def dcBusy : DC := ⟨[], [], true, []⟩

/-- Fixture tree: a child context with one recorded error. -/
def cA : CtxT := .mk [("x", ["e1"])] []

/-- Fixture tree: a second child context with one recorded error. -/
def cB : CtxT := .mk [("y", ["e2"])] []

/-- Fixture tree: a parent with its own error and two component children
`a` and `b`, both holding errors. -/
def cP : CtxT := .mk [("k", ["boom"])] [("a", true, some cA), ("b", true, some cB)]

/-- Fixture tree: a parent with no errors of its own whose only component
child is invalid. -/
def cQ : CtxT := .mk [] [("a", true, some cB)]

/-! ## Theorems -/

/-- Claim C4: whenever `canExecute` evaluates to false for the given
arguments, `execute` throws the "cannot execute now" error synchronously
without invoking the action (the outcome is independent of the action and
the command state is untouched), while `tryExecute` neither throws nor
invokes the action and returns an already-failed result; when `canExecute`
is true, `tryExecute` delegates to `execute`. -/
theorem command_guard_execute_tryExecute (c : Command)
    (act : List JSVal → ActRes) (args : List JSVal) :
    ((c.canExecute args).truthy = false →
      c.execute act args = (c, .threw "Cannot execute this command now") ∧
      c.tryExecute act args = (c, .returned (.rejectedP none))) ∧
    ((c.canExecute args).truthy = true →
      c.tryExecute act args = c.execute act args) := by
  refine ⟨fun h => ⟨?_, ?_⟩, fun h => ?_⟩
  · simp [Command.execute, h]
  · simp [Command.tryExecute, h]
  · simp [Command.tryExecute, h]

/-- Witness for C4 at a command whose condition is constantly false. -/
theorem command_guard_execute_tryExecute_witness :
    cmdFalse.execute actPlain [] = (cmdFalse, .threw "Cannot execute this command now") ∧
    cmdFalse.tryExecute actPlain [] = (cmdFalse, .returned (.rejectedP none)) ∧
    cmdFree.tryExecute actPlain [] = cmdFree.execute actPlain [] :=
  ⟨((command_guard_execute_tryExecute cmdFalse actPlain []).1 rfl).1,
   ((command_guard_execute_tryExecute cmdFalse actPlain []).1 rfl).2,
   (command_guard_execute_tryExecute cmdFree actPlain []).2 rfl⟩

/-- Claim C7: `canExecute` returns `false` whenever `isRunning` is true;
otherwise it returns the result of the configured condition predicate
applied to the arguments, and `true` when no condition is configured. -/
theorem command_canExecute_characterization (c : Command) (args : List JSVal) :
    (c.isRunning = true → c.canExecute args = .vbool false) ∧
    (c.isRunning = false → ∀ p, c.condition = some p → c.canExecute args = p args) ∧
    (c.isRunning = false → c.condition = none → c.canExecute args = .vbool true) := by
  refine ⟨fun h => ?_, fun h p hp => ?_, fun h hn => ?_⟩
  · simp [Command.canExecute, h]
  · simp [Command.canExecute, h, hp]
  · simp [Command.canExecute, h, hn]

/-- Witness for C7 at a running command, a command with a condition, and a
command with none. -/
theorem command_canExecute_characterization_witness :
    cmdRunning.canExecute [] = .vbool false ∧
    cmdCond.canExecute [] = .vbool true ∧
    cmdFree.canExecute [] = .vbool true :=
  ⟨(command_canExecute_characterization cmdRunning []).1 rfl,
   ((command_canExecute_characterization cmdCond []).2.1 rfl
      (fun args => .vbool args.isEmpty) rfl).trans rfl,
   (command_canExecute_characterization cmdFree []).2.2 rfl rfl⟩

theorem FireInv.refl (dc : DC) : FireInv dc dc :=
  ⟨rfl, rfl, rfl, [], by simp⟩

theorem FireInv.step (dc : DC) (e : Event) :
    FireInv dc { dc with events := dc.events ++ [e] } :=
  ⟨rfl, rfl, rfl, [e], rfl⟩

theorem FireInv.trans' {a b c : DC} (h1 : FireInv a b) (h2 : FireInv b c) :
    FireInv a c := by
  obtain ⟨s1, v1, e1, t1, ht1⟩ := h1
  obtain ⟨s2, v2, e2, t2, ht2⟩ := h2
  exact ⟨s2.trans s1, v2.trans v1, e2.trans e1, t1 ++ t2, by rw [ht2, ht1, List.append_assoc]⟩

/-- A `firePropertyChange` cascade only appends events: slots, errors and
the `_validating` flag are untouched, for all three entry points. -/
theorem fire_inv (R : Registry) : ∀ fuel : Nat,
    (∀ dc name nv ov, FireInv dc (fireMethod R fuel dc name nv ov).1) ∧
    (∀ dc ps, FireInv dc (fireDeps R fuel dc ps).1) ∧
    (∀ dc name nv ov, FireInv dc (helperFire R fuel dc name nv ov).1) := by
  intro fuel
  induction fuel with
  | zero =>
      refine ⟨fun dc name nv ov => ?_, fun dc ps => ?_, fun dc name nv ov => ?_⟩ <;>
        simpa [fireMethod, fireDeps, helperFire] using FireInv.refl dc
  | succ f ih =>
      obtain ⟨ihm, ihd, ihh⟩ := ih
      have hm : ∀ dc name nv ov, FireInv dc (fireMethod R (f + 1) dc name nv ov).1 := by
        intro dc name nv ov
        cases hvb : dc.validating with
        | true => simpa [fireMethod, hvb] using FireInv.refl dc
        | false =>
            simp only [fireMethod, hvb, Bool.false_eq_true, if_false]
            have hstep : FireInv dc ⟨dc.slots, dc.errors, false, dc.events ++ [⟨name, nv, ov⟩]⟩ :=
              ⟨rfl, hvb.symm, rfl, ⟨[⟨name, nv, ov⟩], rfl⟩⟩
            cases hl : assocLookup R name with
            | none => simp only [hl]; exact hstep
            | some d =>
                simp only [hl]
                exact hstep.trans' (ihd _ d.dependent)
      have hd : ∀ dc ps, FireInv dc (fireDeps R (f + 1) dc ps).1 := by
        intro dc ps
        cases ps with
        | nil => simpa [fireDeps] using FireInv.refl dc
        | cons p rest =>
            simp only [fireDeps]
            cases hl : assocLookup R p with
            | none => simpa [hl] using ihd dc rest
            | some d =>
                simp only [hl]
                cases hh : helperFire R f dc p (getProp R dc p) .jsUndefined with
                | mk dc1 out =>
                    have h1 : FireInv dc dc1 := by
                      have := ihh dc p (getProp R dc p) .jsUndefined
                      rwa [hh] at this
                    cases out with
                    | ok => simpa using h1.trans' (ihd dc1 rest)
                    | thrown m => simpa using h1
                    | noFuel => simpa using h1
      have hh2 : ∀ dc name nv ov, FireInv dc (helperFire R (f + 1) dc name nv ov).1 := by
        intro dc name nv ov
        by_cases hne : ov ≠ nv
        · simpa [helperFire, hne] using ihm dc name nv ov
        · simpa [helperFire, hne] using FireInv.refl dc
      exact ⟨hm, hd, hh2⟩

theorem fireMethod_inv (R : Registry) (fuel : Nat) (dc : DC) (name : String)
    (nv ov : JSVal) : FireInv dc (fireMethod R fuel dc name nv ov).1 :=
  (fire_inv R fuel).1 dc name nv ov

theorem fireDeps_inv (R : Registry) (fuel : Nat) (dc : DC) (ps : List String) :
    FireInv dc (fireDeps R fuel dc ps).1 :=
  (fire_inv R fuel).2.1 dc ps

theorem helperFire_inv (R : Registry) (fuel : Nat) (dc : DC) (name : String)
    (nv ov : JSVal) : FireInv dc (helperFire R fuel dc name nv ov).1 :=
  (fire_inv R fuel).2.2 dc name nv ov

/-- Claim C9: for a default-RW property whose backing slot was never
written (so the getter already returns the default `v`), assigning that
very value `v` still fires a change notification, because the generated
setter compares the raw slot content (`undefined`) with the new value
rather than the getter's effective value. -/
theorem defaultRW_set_default_fires (R : Registry) (fuel : Nat) (dc : DC)
    (name : String) (d : PropDesc) (v : JSVal)
    (hR : assocLookup R name = some d)
    (hget : d.customGet = none)
    (hraw : dc.rawGet name = .jsUndefined)
    (hdef : d.default = v)
    (hv : v ≠ .jsUndefined)
    (hval : dc.validating = false)
    (hdep : d.dependent = []) :
    getProp R dc name = v ∧
    setProp R (fuel + 3) dc name v =
      ({ dc with slots := assocPut dc.slots name v,
                 events := dc.events ++ [⟨name, v, .jsUndefined⟩] }, .ok) := by
  have hne : (JSVal.jsUndefined ≠ v) := fun h => hv h.symm
  constructor
  · simp [getProp, hR, hget, hraw, hdef]
  · cases hset : d.customSet with
    | none =>
        simp only [setProp, hR, hget, hset, hraw, helperFire, hne, if_true, ne_eq,
          not_false_iff, if_pos, fireMethod, hval, Bool.false_eq_true, if_false, hdep,
          fireDeps]
    | some s =>
        simp only [setProp, hR, hget, hset, hraw, helperFire, hne, if_true, ne_eq,
          not_false_iff, if_pos, fireMethod, hval, Bool.false_eq_true, if_false, hdep,
          fireDeps]

/-- Witness for C9 at `Rp` (default `5`) and a fresh instance. -/
theorem defaultRW_set_default_fires_witness :
    getProp Rp dcEmpty "p" = .vint 5 ∧
    setProp Rp 3 dcEmpty "p" (.vint 5) =
      (⟨[("p", .vint 5)], [], false, [⟨"p", .vint 5, .jsUndefined⟩]⟩, .ok) := by
  have h := defaultRW_set_default_fires Rp 0 dcEmpty "p"
    ⟨true, [], .vint 5, none, none, none⟩ (.vint 5) rfl rfl rfl rfl
    (by decide) rfl rfl
  exact ⟨h.1, h.2⟩

theorem assocLookup_assocPut_self {α : Type} (l : List (String × α)) (k : String) (v : α) :
    assocLookup (assocPut l k v) k = some v := by
  induction l with
  | nil => simp [assocPut, assocLookup]
  | cons q rest ih =>
      obtain ⟨qk, qv⟩ := q
      by_cases h : qk = k
      · simp [assocPut, assocLookup, h]
      · simp [assocPut, assocLookup, h, ih]

theorem assocLookup_assocPut_ne {α : Type} (l : List (String × α)) (k k' : String) (v : α)
    (h : k' ≠ k) : assocLookup (assocPut l k v) k' = assocLookup l k' := by
  induction l with
  | nil => simp [assocPut, assocLookup, Ne.symm h]
  | cons q rest ih =>
      obtain ⟨qk, qv⟩ := q
      by_cases hqk : qk = k
      · subst hqk
        simp [assocPut, assocLookup, Ne.symm h]
      · by_cases hq' : qk = k'
        · simp [assocPut, assocLookup, hqk, hq', h]
        · simp [assocPut, assocLookup, hqk, hq', ih]

theorem assocLookup_of_mem_nodup {α : Type} :
    ∀ (l : List (String × α)), (l.map Prod.fst).Nodup →
      ∀ p ∈ l, assocLookup l p.1 = some p.2 := by
  intro l
  induction l with
  | nil => intro _ p hp; cases hp
  | cons q rest ih =>
      intro hnd p hp
      obtain ⟨qk, qv⟩ := q
      rw [List.map_cons, List.nodup_cons] at hnd
      rcases List.mem_cons.mp hp with h | h
      · subst h; simp [assocLookup]
      · have hne : qk ≠ p.1 := by
          intro he
          apply hnd.1
          rw [he]
          exact List.mem_map.mpr ⟨p, h, rfl⟩
        simp [assocLookup, hne, ih hnd.2 p h]

theorem nodup_key_eq {α : Type} :
    ∀ (l : List (String × α)), (l.map Prod.fst).Nodup →
      ∀ p ∈ l, ∀ q ∈ l, p.1 = q.1 → p = q := by
  intro l
  induction l with
  | nil => intro _ p hp; cases hp
  | cons r rest ih =>
      intro hnd p hp q hq hpq
      rw [List.map_cons, List.nodup_cons] at hnd
      rcases List.mem_cons.mp hp with h1 | h1 <;> rcases List.mem_cons.mp hq with h2 | h2
      · rw [h1, h2]
      · exfalso
        apply hnd.1
        rw [h1] at hpq
        rw [hpq]
        exact List.mem_map.mpr ⟨q, h2, rfl⟩
      · exfalso
        apply hnd.1
        rw [h2] at hpq
        rw [← hpq]
        exact List.mem_map.mpr ⟨p, h1, rfl⟩
      · exact ih hnd.2 p h1 q h2 hpq

/-- `setProp` through the default-RW path (no custom getter) updates the
backing slot and leaves errors and the `_validating` flag alone. -/
theorem setProp_defaultRW_state (R : Registry) (fuel : Nat) (dc : DC) (name : String)
    (d : PropDesc) (v : JSVal)
    (hR : assocLookup R name = some d) (hg : d.customGet = none) :
    (setProp R fuel dc name v).1.slots = assocPut dc.slots name v ∧
    (setProp R fuel dc name v).1.validating = dc.validating ∧
    (setProp R fuel dc name v).1.errors = dc.errors := by
  cases hs : d.customSet with
  | none =>
      simp only [setProp, hR, hg, hs]
      have h := helperFire_inv R fuel
        { dc with slots := assocPut dc.slots name v } name v (dc.rawGet name)
      exact ⟨h.1, h.2.1, h.2.2.1⟩
  | some s =>
      simp only [setProp, hR, hg, hs]
      have h := helperFire_inv R fuel
        { dc with slots := assocPut dc.slots name v } name v (dc.rawGet name)
      exact ⟨h.1, h.2.1, h.2.2.1⟩

/-- The `reset` walk: writable default-RW entries end at the supplied value
when truthy, else at their default; names only bound to non-writable
entries keep their slot. -/
theorem resetLoop_values (R : Registry) (fuel : Nat) (data : List (String × JSVal)) :
    ∀ (items : List (String × PropDesc)) (dc dcf : DC),
    (∀ p ∈ items, assocLookup R p.1 = some p.2) →
    (∀ p ∈ items, p.2.writable = true → p.2.customGet = none ∧ p.2.customSet = none) →
    (items.map Prod.fst).Nodup →
    resetLoop R fuel items dc data = (dcf, .ok) →
    (∀ p ∈ items, p.2.writable = true →
        dcf.rawGet p.1 =
          (if ((assocLookup data p.1).getD .jsUndefined).truthy
           then (assocLookup data p.1).getD .jsUndefined else p.2.default)) ∧
    (∀ nm : String, (∀ p ∈ items, p.1 = nm → p.2.writable = false) →
        dcf.rawGet nm = dc.rawGet nm) := by
  intro items
  induction items with
  | nil =>
      intro dc dcf _ _ _ h
      simp only [resetLoop, Prod.mk.injEq] at h
      refine ⟨fun p hp => absurd hp (List.not_mem_nil p), fun nm _ => ?_⟩
      rw [← h.1]
  | cons q rest ih =>
      intro dc dcf hres hplain hnd h
      obtain ⟨name, d⟩ := q
      rw [List.map_cons, List.nodup_cons] at hnd
      cases hw : d.writable with
      | false =>
          simp only [resetLoop, hw, Bool.false_eq_true, if_false] at h
          obtain ⟨ih1, ih2⟩ := ih dc dcf
            (fun p hp => hres p (List.mem_cons_of_mem _ hp))
            (fun p hp => hplain p (List.mem_cons_of_mem _ hp)) hnd.2 h
          refine ⟨fun p hp hpw => ?_, fun nm hnm => ?_⟩
          · rcases List.mem_cons.mp hp with h1 | h1
            · rw [h1] at hpw; rw [hpw] at hw; cases hw
            · exact ih1 p h1 hpw
          · exact ih2 nm (fun p hp => hnm p (List.mem_cons_of_mem _ hp))
      | true =>
          simp only [resetLoop, hw, if_true] at h
          cases hsp : setProp R fuel dc name
              (if ((assocLookup data name).getD .jsUndefined).truthy
               then (assocLookup data name).getD .jsUndefined else d.default) with
          | mk dcm out =>
              rw [hsp] at h
              cases out with
              | thrown m => simp at h
              | noFuel => simp at h
              | ok =>
                  have hd : assocLookup R name = some d :=
                    hres (name, d) (List.mem_cons_self _ _)
                  have hcg : d.customGet = none :=
                    (hplain (name, d) (List.mem_cons_self _ _) hw).1
                  have hst := setProp_defaultRW_state R fuel dc name d
                    (if ((assocLookup data name).getD .jsUndefined).truthy
                     then (assocLookup data name).getD .jsUndefined else d.default) hd hcg
                  rw [hsp] at hst
                  obtain ⟨ih1, ih2⟩ := ih dcm dcf
                    (fun p hp => hres p (List.mem_cons_of_mem _ hp))
                    (fun p hp => hplain p (List.mem_cons_of_mem _ hp)) hnd.2 h
                  refine ⟨fun p hp hpw => ?_, fun nm hnm => ?_⟩
                  · rcases List.mem_cons.mp hp with h1 | h1
                    · rw [h1]
                      have hrest : ∀ p ∈ rest, p.1 = name → p.2.writable = false := by
                        intro p hp1 hp2
                        exfalso
                        apply hnd.1
                        rw [← hp2]
                        exact List.mem_map.mpr ⟨p, hp1, rfl⟩
                      rw [ih2 name hrest]
                      show dcm.rawGet name = _
                      rw [DC.rawGet, hst.1, assocLookup_assocPut_self]
                      rfl
                    · exact ih1 p h1 hpw
                  · have hne : name ≠ nm := by
                      intro he
                      have := hnm (name, d) (List.mem_cons_self _ _) he
                      rw [hw] at this; cases this
                    rw [ih2 nm (fun p hp => hnm p (List.mem_cons_of_mem _ hp))]
                    show dcm.rawGet nm = dc.rawGet nm
                    rw [DC.rawGet, DC.rawGet, hst.1,
                      assocLookup_assocPut_ne _ _ _ _ (fun he => hne he.symm)]

/-- A truthy value is never `undefined`. -/
theorem JSVal.truthy_ne_undefined_val {v : JSVal} (h : v.truthy = true) : v ≠ .jsUndefined := by
  intro he; rw [he] at h; cases h

/-- Claim C3 (amended): `reset(newData)` assigns each writable default-RW
property the value `newData[name]` when that value is truthy and the
descriptor's default otherwise (the source computes
`newData[name] || property.default`, so present-but-falsy values fall back
to the default); non-writable properties are left untouched.  In
particular `reset({})` sets every writable property to its default. -/
theorem reset_assigns_truthy_or_default (R : Registry) (fuel : Nat) (dc dcf : DC)
    (data : List (String × JSVal))
    (hnodup : (R.map Prod.fst).Nodup)
    (hplain : ∀ p ∈ R, p.2.writable = true → p.2.customGet = none ∧ p.2.customSet = none)
    (hok : reset R fuel dc data = (dcf, .ok)) :
    (∀ p ∈ R, p.2.writable = true →
        getProp R dcf p.1 =
          (if ((assocLookup data p.1).getD .jsUndefined).truthy
           then (assocLookup data p.1).getD .jsUndefined else p.2.default)) ∧
    (∀ p ∈ R, p.2.writable = false → dcf.rawGet p.1 = dc.rawGet p.1) := by
  obtain ⟨h1, h2⟩ := resetLoop_values R fuel data R dc dcf
    (fun p hp => assocLookup_of_mem_nodup R hnodup p hp) hplain hnodup hok
  constructor
  · intro p hp hpw
    have hv := h1 p hp hpw
    have hR := assocLookup_of_mem_nodup R hnodup p hp
    have hcg := (hplain p hp hpw).1
    rw [getProp, hR]
    simp only [hcg]
    rw [hv]
    cases ht : ((assocLookup data p.1).getD .jsUndefined).truthy with
    | true =>
        simp only [if_true]
        simp [JSVal.truthy_ne_undefined_val ht]
    | false =>
        simp only [Bool.false_eq_true, if_false]
        by_cases hd : p.2.default = JSVal.jsUndefined
        · simp [hd]
        · simp [hd]
  · intro p hp hpw
    refine h2 p.1 (fun q hq hq1 => ?_)
    have := nodup_key_eq R hnodup q hq p hp hq1
    rw [this, hpw]

/-- Counterexample to Claim C3 as stated: with a writable property `p`
whose default is `5`, `reset({p: 0})` leaves `p` at `5`, not at the
supplied falsy `0`. -/
theorem reset_falsy_counterexample :
    (reset Rp 3 dcEmpty [("p", .vint 0)]).2 = .ok ∧
    getProp Rp (reset Rp 3 dcEmpty [("p", .vint 0)]).1 "p" = .vint 5 ∧
    (JSVal.vint 5) ≠ .vint 0 := by
  refine ⟨by decide, by decide, by decide⟩

/-- Witness for the amended C3 at `Rp` and `newData = {p: 0}`. -/
theorem reset_assigns_truthy_or_default_witness :
    getProp Rp (⟨[("p", .vint 5)], [], false, [⟨"p", .vint 5, .jsUndefined⟩]⟩ : DC) "p" = .vint 5 ∧
    (⟨[("p", .vint 5)], [], false, [⟨"p", .vint 5, .jsUndefined⟩]⟩ : DC).rawGet "q" = dcEmpty.rawGet "q" := by
  have h := reset_assigns_truthy_or_default Rp 3 dcEmpty
    (⟨[("p", .vint 5)], [], false, [⟨"p", .vint 5, .jsUndefined⟩]⟩ : DC) [("p", .vint 0)]
    (by decide)
    (by
      intro p hp _
      have : p = ("p", (⟨true, [], .vint 5, none, none, none⟩ : PropDesc)) := by
        simpa [Rp] using hp
      rw [this]
      exact ⟨rfl, rfl⟩)
    (by decide)
  constructor
  · have := h.1 ("p", (⟨true, [], .vint 5, none, none, none⟩ : PropDesc))
      (by simp [Rp]) rfl
    simpa using this
  · rfl

/-- `this[q]` only depends on the backing slots when `q` has no custom
getter. -/
theorem getProp_stable (R : Registry) (dc dc' : DC) (q : String) (dq : PropDesc)
    (hs : dc'.slots = dc.slots)
    (hq : assocLookup R q = some dq) (hg : dq.customGet = none) :
    getProp R dc' q = getProp R dc q := by
  rw [getProp, getProp, hq]
  simp only [hg]
  rw [DC.rawGet, DC.rawGet, hs]

/-- A successful helper fire with a defined new value and `undefined` old
value emits the event `(name, nv, undefined)` right after the existing
trace. -/
theorem helperFire_ok_emits (R : Registry) (fuel : Nat) (dc dc1 : DC)
    (name : String) (nv : JSVal)
    (hval : dc.validating = false) (hne : nv ≠ .jsUndefined)
    (h : helperFire R fuel dc name nv .jsUndefined = (dc1, .ok)) :
    ∃ t, dc1.events = dc.events ++ ⟨name, nv, .jsUndefined⟩ :: t := by
  cases fuel with
  | zero => simp [helperFire] at h
  | succ f =>
      rw [helperFire] at h
      rw [if_pos (Ne.symm hne)] at h
      cases f with
      | zero => simp [fireMethod] at h
      | succ g =>
          rw [fireMethod] at h
          simp only [hval, Bool.false_eq_true, if_false] at h
          cases hl : assocLookup R name with
          | none =>
              simp only [hl] at h
              have h2 := (Prod.mk.injEq _ _ _ _).mp h
              exact ⟨[], by rw [← h2.1]⟩
          | some d =>
              simp only [hl] at h
              have hinv := fireDeps_inv R g
                ⟨dc.slots, dc.errors, false, dc.events ++ [⟨name, nv, .jsUndefined⟩]⟩ d.dependent
              rw [h] at hinv
              obtain ⟨t, ht⟩ := hinv.2.2.2
              exact ⟨t, by rw [ht]; simp⟩

/-- Each dependent name with a declared plain descriptor and a defined
current value gets its `(p, this[p], undefined)` event during a successful
dependent walk. -/
theorem fireDeps_mem (R : Registry) :
    ∀ fuel : Nat, ∀ (ps : List String) (dc dcf : DC),
    dc.validating = false →
    (∀ q ∈ ps, ∀ dq, assocLookup R q = some dq → dq.customGet = none) →
    fireDeps R fuel dc ps = (dcf, .ok) →
    ∀ p ∈ ps, (assocLookup R p).isSome → getProp R dc p ≠ .jsUndefined →
      Event.mk p (getProp R dc p) .jsUndefined ∈ dcf.events := by
  intro fuel
  induction fuel with
  | zero =>
      intro ps dc dcf _ _ h
      simp [fireDeps] at h
  | succ f ih =>
      intro ps dc dcf hval hcg h p hp hps hpv
      cases ps with
      | nil => cases hp
      | cons q rest =>
          rw [fireDeps] at h
          cases hq : assocLookup R q with
          | none =>
              simp only [hq] at h
              rcases List.mem_cons.mp hp with h1 | h1
              · subst h1; rw [hq] at hps; cases hps
              · exact ih rest dc dcf hval
                  (fun r hr => hcg r (List.mem_cons_of_mem _ hr)) h p h1 hps hpv
          | some dq =>
              cases hh : helperFire R f dc q (getProp R dc q) .jsUndefined with
              | mk dc1 out =>
                  cases out with
                  | thrown m => simp only [hq, hh] at h; simp at h
                  | noFuel => simp only [hq, hh] at h; simp at h
                  | ok =>
                      simp only [hq, hh] at h
                      have hinv1 : FireInv dc dc1 := by
                        have := helperFire_inv R f dc q (getProp R dc q) .jsUndefined
                        rwa [hh] at this
                      rcases List.mem_cons.mp hp with h1 | h1
                      · subst h1
                        obtain ⟨t, ht⟩ :=
                          helperFire_ok_emits R f dc dc1 p (getProp R dc p) hval hpv hh
                        have hmem : Event.mk p (getProp R dc p) .jsUndefined ∈ dc1.events := by
                          rw [ht]
                          exact List.mem_append_right _ (List.mem_cons_self _ _)
                        have hinv2 : FireInv dc1 dcf := by
                          have := fireDeps_inv R f dc1 rest
                          rwa [h] at this
                        obtain ⟨t2, ht2⟩ := hinv2.2.2.2
                        rw [ht2]
                        exact List.mem_append_left _ hmem
                      · have hval1 : dc1.validating = false := by rw [hinv1.2.1, hval]
                        cases hpl : assocLookup R p with
                        | none => rw [hpl] at hps; cases hps
                        | some dp =>
                            have hstable : getProp R dc1 p = getProp R dc p :=
                              getProp_stable R dc dc1 p dp hinv1.1 hpl
                                (hcg p hp dp hpl)
                            have hr := ih rest dc1 dcf hval1
                              (fun r hr => hcg r (List.mem_cons_of_mem _ hr)) h p h1 hps
                              (by rw [hstable]; exact hpv)
                            rwa [hstable] at hr

/-- Claim C1 (amended): outside a validating pass, `firePropertyChange`
first emits the change event for `name`; then, for each declared dependent
property `p` whose current value is not `undefined`, it re-fires a change
event carrying `p`'s current value as the new value and `undefined` — not
the current value — as the old value (the dependent loop calls the
module-level helper with only three arguments); dependents whose current
value is `undefined` are skipped by the helper's `oldValue !== newValue`
guard. -/
theorem firePropertyChange_dependent_refire (R : Registry) (fuel : Nat)
    (dc dcf : DC) (name : String) (nv ov : JSVal) (d : PropDesc)
    (hval : dc.validating = false)
    (hd : assocLookup R name = some d)
    (hcg : ∀ q ∈ d.dependent, ∀ dq, assocLookup R q = some dq → dq.customGet = none)
    (hfire : fireMethod R fuel dc name nv ov = (dcf, .ok)) :
    (∃ t, dcf.events = dc.events ++ ⟨name, nv, ov⟩ :: t) ∧
    ∀ p ∈ d.dependent, (assocLookup R p).isSome → getProp R dc p ≠ .jsUndefined →
      Event.mk p (getProp R dc p) .jsUndefined ∈ dcf.events := by
  cases fuel with
  | zero => simp [fireMethod] at hfire
  | succ f =>
      rw [fireMethod] at hfire
      simp only [hval, Bool.false_eq_true, if_false, hd] at hfire
      constructor
      · have hinv := fireDeps_inv R f
          ⟨dc.slots, dc.errors, false, dc.events ++ [⟨name, nv, ov⟩]⟩ d.dependent
        rw [hfire] at hinv
        obtain ⟨t, ht⟩ := hinv.2.2.2
        exact ⟨t, by rw [ht]; simp⟩
      · intro p hp hps hpv
        cases hpl : assocLookup R p with
        | none => rw [hpl] at hps; cases hps
        | some dp =>
            have hs : getProp R
                (⟨dc.slots, dc.errors, false, dc.events ++ [⟨name, nv, ov⟩]⟩ : DC) p
                = getProp R dc p :=
              getProp_stable R dc _ p dp rfl hpl (hcg p hp dp hpl)
            have hr := fireDeps_mem R f d.dependent
              ⟨dc.slots, dc.errors, false, dc.events ++ [⟨name, nv, ov⟩]⟩ dcf rfl hcg hfire
              p hp hps (by rw [hs]; exact hpv)
            rwa [hs] at hr

/-- Counterexample to Claim C1 as stated: firing `a` (dependents `b`, `c`)
emits `(b, 7, undefined)` — the dependent's current value is only the new
value, the old value is `undefined`, and no event carries `b`'s current
value as both; the dependent `c`, whose current value is `undefined`, gets
no event at all. -/
theorem firePropertyChange_dependent_counterexample :
    fireMethod Rdep 5 dcDep "a" (.vint 1) (.vint 0) =
      (⟨[("b", .vint 7)], [], false,
        [⟨"a", .vint 1, .vint 0⟩, ⟨"b", .vint 7, .jsUndefined⟩]⟩, .ok) ∧
    Event.mk "b" (.vint 7) (.vint 7) ∉
      (fireMethod Rdep 5 dcDep "a" (.vint 1) (.vint 0)).1.events ∧
    ∀ e ∈ (fireMethod Rdep 5 dcDep "a" (.vint 1) (.vint 0)).1.events, e.name ≠ "c" := by
  refine ⟨by decide, by decide, by decide⟩

/-- Witness for the amended C1 at `Rdep`/`dcDep`. -/
theorem firePropertyChange_dependent_refire_witness :
    (∃ t, (⟨[("b", .vint 7)], [], false,
            [⟨"a", .vint 1, .vint 0⟩, ⟨"b", .vint 7, .jsUndefined⟩]⟩ : DC).events =
          dcDep.events ++ ⟨"a", .vint 1, .vint 0⟩ :: t) ∧
    Event.mk "b" (getProp Rdep dcDep "b") .jsUndefined ∈
      (⟨[("b", .vint 7)], [], false,
        [⟨"a", .vint 1, .vint 0⟩, ⟨"b", .vint 7, .jsUndefined⟩]⟩ : DC).events := by
  have h := firePropertyChange_dependent_refire Rdep 5 dcDep
    (⟨[("b", .vint 7)], [], false,
      [⟨"a", .vint 1, .vint 0⟩, ⟨"b", .vint 7, .jsUndefined⟩]⟩ : DC)
    "a" (.vint 1) (.vint 0) (⟨true, ["b", "c"], .jsUndefined, none, none, none⟩ : PropDesc)
    rfl rfl
    (by
      intro q hq dq hdq
      have hq2 : q = "b" ∨ q = "c" := by simpa using hq
      rcases hq2 with h1 | h1 <;> subst h1
      · have h2 : (some (⟨true, [], JSVal.vint 7, none, none, none⟩ : PropDesc)
            : Option PropDesc) = some dq := hdq
        cases h2; rfl
      · have h2 : (some (⟨true, [], JSVal.jsUndefined, none, none, none⟩ : PropDesc)
            : Option PropDesc) = some dq := hdq
        cases h2; rfl)
    (by decide)
  exact ⟨h.1, h.2 "b" (by simp) (by decide) (by decide)⟩

/-- The `finally`-block re-fire walk also only appends events. -/
theorem fireChanged_inv (R : Registry) (fuel : Nat) :
    ∀ (ps : List String) (dc : DC), FireInv dc (fireChanged R fuel ps dc).1 := by
  intro ps
  induction ps with
  | nil => intro dc; simpa [fireChanged] using FireInv.refl dc
  | cons n rest ih =>
      intro dc
      simp only [fireChanged]
      cases hm : fireMethod R fuel dc n (getProp R dc n) (getProp R dc n) with
      | mk dc1 out =>
          have h1 : FireInv dc dc1 := by
            have := fireMethod_inv R fuel dc n (getProp R dc n) (getProp R dc n)
            rwa [hm] at this
          cases out with
          | ok => exact h1.trans' (ih dc1)
          | thrown m => exact h1
          | noFuel => exact h1

/-- Claim C6: `validate` releases the `_validating` flag on every exit
path — the returned state has `validating = false` for every registry,
fuel and start state, including registries whose setters or component
validations throw mid-pass; while the flag is set, `firePropertyChange` is
a no-op; and a `firePropertyChange` cascade never changes the flag (the
flag is written only by `validate` itself). -/
theorem validate_validating_scoped (R : Registry) (fuel : Nat) (dc : DC) :
    (validate R fuel dc).1.validating = false ∧
    (∀ f name nv ov, dc.validating = true →
        fireMethod R (f + 1) dc name nv ov = (dc, .ok)) ∧
    (∀ f name nv ov, (fireMethod R f dc name nv ov).1.validating = dc.validating) := by
  refine ⟨?_, fun f name nv ov h => by simp [fireMethod, h],
    fun f name nv ov => (fireMethod_inv R f dc name nv ov).2.1⟩
  cases hl : validateLoop R fuel R { dc with validating := true } [] with
  | mk dc1 p2 =>
      cases p2 with
      | mk ch out =>
          simp only [validate, hl]
          cases hf : fireChanged R fuel ch { dc1 with validating := false } with
          | mk dc3 out2 =>
              have h3 : dc3.validating = false := by
                have := (fireChanged_inv R fuel ch { dc1 with validating := false }).2.1
                rw [hf] at this
                exact this
              cases out2 <;> cases out <;> simpa using h3

/-- Witness for C6: a registry whose only setter throws still comes out of
`validate` with the flag released and the exception propagated, and a
validating instance swallows `firePropertyChange`. -/
theorem validate_validating_scoped_witness :
    (validate Rbad 5 dcEmpty).1.validating = false ∧
    (validate Rbad 5 dcEmpty).2 = .thrown "boom" ∧
    fireMethod Rp 3 dcBusy "p" (.vint 1) (.vint 2) = (dcBusy, .ok) :=
  ⟨(validate_validating_scoped Rbad 5 dcEmpty).1, by decide,
   (validate_validating_scoped Rp 5 dcBusy).2.1 2 "p" (.vint 1) (.vint 2) rfl⟩

/-- The `_.every` component walk of `isValid()` holds exactly when every
reachable component child is itself valid. -/
theorem childrenValid_iff (ps : List (String × Bool × Option CtxT)) :
    childrenValid ps = true ↔
      ∀ child ∈ componentChildren ps, child.isValidRoot = true := by
  induction ps with
  | nil => simp [childrenValid, componentChildren]
  | cons e rest ih =>
      obtain ⟨n, isComp, oc⟩ := e
      cases isComp with
      | false => simpa [childrenValid, componentChildren] using ih
      | true =>
          cases oc with
          | none => simpa [childrenValid, componentChildren] using ih
          | some c => simp [childrenValid, componentChildren, ih, and_comm]

/-- Modelled from the spec: the collector's whole-entity verdict holds
exactly when no key has errors. -/
theorem errIsValidAll_iff (es : List (String × List String)) :
    errIsValidAll es = true ↔ ∀ kv ∈ es, kv.2 = ([] : List String) := by
  simp [errIsValidAll, List.all_eq_true, List.isEmpty_iff]

/-- Claim C5: `isValid(key)` with a key holds iff the collector has no
errors for that key; `isValid()` with no key holds iff no key has errors
and every nested component child is itself valid; in particular a parent is
invalid whenever some component child is invalid. -/
theorem isValid_characterization (c : CtxT) (k : String) :
    (c.isValid (some k) = true ↔ errsOf c.errList k = []) ∧
    (c.isValid none = true ↔
      ((∀ kv ∈ c.errList, kv.2 = ([] : List String)) ∧
       ∀ child ∈ componentChildren c.propList, child.isValidRoot = true)) ∧
    (∀ child ∈ componentChildren c.propList, child.isValidRoot = false →
        c.isValid none = false) := by
  obtain ⟨es, ps⟩ := c
  refine ⟨?_, ?_, ?_⟩
  · simp [CtxT.isValid, errIsValidKey, CtxT.errList, List.isEmpty_iff]
  · simp [CtxT.isValid, CtxT.isValidRoot, CtxT.errList, CtxT.propList,
      errIsValidAll_iff, childrenValid_iff]
  · intro child hc hcv
    have hcc : childrenValid ps = false := by
      cases hcb : childrenValid ps with
      | false => rfl
      | true =>
          have := (childrenValid_iff ps).mp hcb child hc
          rw [hcv] at this; cases this
    simp [CtxT.isValid, CtxT.isValidRoot, hcc]

/-- Witness for C5: a parent with no errors of its own is invalid because
its component child is; a keyed check reads the collector alone. -/
theorem isValid_characterization_witness :
    cQ.isValid none = false ∧ cB.isValid (some "y") = false := by
  constructor
  · exact (isValid_characterization cQ "y").2.2 cB (List.mem_singleton.mpr rfl) (by decide)
  · have h := (isValid_characterization cB "y").1
    cases hv : cB.isValid (some "y") with
    | false => rfl
    | true => exact absurd (h.mp hv) (by decide)

/-- Claim C10: `hasErrors(key)` is exactly the negation of `isValid(key)`;
in particular `hasErrors()` with no key is true when a nested component is
invalid even though the context's own collector is empty. -/
theorem hasErrors_negates_isValid (c : CtxT) (k : Option String) :
    c.hasErrors k = !(c.isValid k) ∧
    (errIsValidAll c.errList = true →
      (∃ child ∈ componentChildren c.propList, child.isValidRoot = false) →
      c.hasErrors none = true) := by
  obtain ⟨es, ps⟩ := c
  refine ⟨rfl, fun herr h => ?_⟩
  obtain ⟨child, hc, hcv⟩ := h
  have hcc : childrenValid ps = false := by
    cases hcb : childrenValid ps with
    | false => rfl
    | true =>
        have := (childrenValid_iff ps).mp hcb child hc
        rw [hcv] at this; cases this
  simp [CtxT.hasErrors, CtxT.isValid, CtxT.isValidRoot, hcc]

/-- Witness for C10 at the error-free parent `cQ` with an invalid child. -/
theorem hasErrors_negates_isValid_witness :
    cQ.hasErrors none = true :=
  (hasErrors_negates_isValid cQ none).2 (by decide)
    ⟨cB, List.mem_singleton.mpr rfl, by decide⟩

/-- Claim C2 evaluated at the failing input: `clearErrors()` on a parent
with two errored component children empties the parent's own collector and
the first child's, but the `_.every` walk stops there — the second child's
errors survive and the context stays invalid. -/
theorem clearErrors_stops_at_first_component :
    cP.clearErrorsRoot.errList = [] ∧
    (getChild cP.clearErrorsRoot "a").map CtxT.errList = some [] ∧
    (getChild cP.clearErrorsRoot "b").map CtxT.errList = some [("y", ["e2"])] ∧
    cP.clearErrorsRoot.isValidRoot = false := by
  refine ⟨by decide, by decide, by decide, by decide⟩

/-- `DataContext.attach` appends one subscription per declared property. -/
theorem dcAttach_subs (props : List String) (l : Nat) :
    ∀ em : Emitter, (dcAttach props em l).subs = em.subs ++ props.map (fun n => (n, l)) := by
  induction props with
  | nil => intro em; simp [dcAttach]
  | cons p rest ih =>
      intro em
      simp only [dcAttach, List.foldl_cons]
      rw [show List.foldl (fun e name => e.on name l) (em.on p l) rest
            = dcAttach rest (em.on p l) l from rfl]
      rw [ih (em.on p l)]
      simp [Emitter.on]

/-- Delivery count of a listener after `attach`: what it had before plus
one per occurrence of the event name among the declared properties. -/
theorem dcAttach_count (props : List String) (em : Emitter) (l : Nat) (name : String) :
    ((dcAttach props em l).deliveries name).count l
      = ((em.deliveries name).count l) + props.count name := by
  simp only [Emitter.deliveries, dcAttach_subs props l em, List.filter_append,
    List.map_append, List.count_append]
  congr 1
  induction props with
  | nil => simp
  | cons p rest ih =>
      by_cases h : p = name
      · simp [h, ih, List.count_cons]
      · simp [h, ih, List.count_cons, Ne.symm h]

/-- After `emitter.off(name, l)`, events for `name` never reach `l`. -/
theorem off_deliveries_count_self (em : Emitter) (name : String) (l : Nat) :
    (((em.off name l).deliveries name).count l) = 0 := by
  rw [List.count_eq_zero]
  intro hl
  rw [Emitter.off, Emitter.deliveries] at hl
  simp only [List.mem_map, List.mem_filter] at hl
  obtain ⟨s, ⟨hs1, hs2⟩, hs3⟩ := hl
  simp only [Bool.not_eq_true', Bool.and_eq_false_iff, decide_eq_true_eq,
    decide_eq_false_iff_not] at hs1 hs2
  subst hs3
  rcases hs1.2 with h | h
  · exact h hs2
  · exact h rfl

/-- `off` never creates deliveries: a zero count stays zero. -/
theorem off_count_zero (em : Emitter) (n' : String) (l' : Nat) (name : String) (lx : Nat)
    (h : ((em.deliveries name).count lx) = 0) :
    (((em.off n' l').deliveries name).count lx) = 0 := by
  rw [List.count_eq_zero] at h ⊢
  intro hx
  have hsub : ((em.off n' l').deliveries name).Sublist (em.deliveries name) :=
    ((List.filter_sublist _).filter _).map _
  exact h (hsub.subset hx)

/-- `DataContext.detach` never creates deliveries either. -/
theorem dcDetach_preserves_zero (props : List String) (l : Nat) (name : String) (lx : Nat) :
    ∀ em : Emitter, ((em.deliveries name).count lx) = 0 →
      (((dcDetach props em l).deliveries name).count lx) = 0 := by
  induction props with
  | nil => intro em h; simpa [dcDetach] using h
  | cons p rest ih =>
      intro em h
      simp only [dcDetach, List.foldl_cons]
      exact ih (em.off p l) (off_count_zero em p l name lx h)

/-- After `DataContext.detach(l)`, a declared property's events no longer
reach `l`. -/
theorem dcDetach_count (props : List String) (l : Nat) (name : String)
    (hmem : name ∈ props) :
    ∀ em : Emitter, (((dcDetach props em l).deliveries name).count l) = 0 := by
  induction props with
  | nil => cases hmem
  | cons p rest ih =>
      intro em
      simp only [dcDetach, List.foldl_cons]
      rcases List.mem_cons.mp hmem with h1 | h1
      · subst h1
        exact dcDetach_preserves_zero rest l name l (em.off name l)
          (off_deliveries_count_self em name l)
      · exact ih h1 (em.off p l)

/-- Claim C8: on a controller whose listener is already attached, a second
`_attachViewModel` is ignored (state unchanged, only a warning), so the
listener stays subscribed exactly once per declared property — a property
change event reaches it exactly once — and a single `_detachViewModel`
fully unsubscribes it. -/
theorem controller_double_attach_ignored (props : List String) (em0 : Emitter) (l : Nat)
    (hfresh : ∀ name, ((em0.deliveries name).count l) = 0)
    (hnodup : props.Nodup) :
    (attachViewModel props (attachViewModel props ⟨none, em0⟩ l) l
      = attachViewModel props ⟨none, em0⟩ l) ∧
    (∀ name ∈ props,
      (((attachViewModel props (attachViewModel props ⟨none, em0⟩ l) l).em.deliveries
          name).count l) = 1) ∧
    (∀ name ∈ props,
      (((detachViewModel props
          (attachViewModel props (attachViewModel props ⟨none, em0⟩ l) l)).em.deliveries
          name).count l) = 0) ∧
    (detachViewModel props
        (attachViewModel props (attachViewModel props ⟨none, em0⟩ l) l)).modelListener
      = none := by
  refine ⟨rfl, fun name hname => ?_, fun name hname => ?_, rfl⟩
  · show ((dcAttach props em0 l).deliveries name).count l = 1
    rw [dcAttach_count, hfresh name, List.count_eq_one_of_mem hnodup hname]
  · show ((dcDetach props (dcAttach props em0 l) l).deliveries name).count l = 0
    exact dcDetach_count props l name hname (dcAttach props em0 l)

/-- Witness for C8 with two declared properties and a fresh emitter. -/
theorem controller_double_attach_ignored_witness :
    ((attachViewModel ["x", "y"] (attachViewModel ["x", "y"] ⟨none, ⟨[]⟩⟩ 0) 0).em.deliveries
        "x").count 0 = 1 ∧
    ((detachViewModel ["x", "y"]
        (attachViewModel ["x", "y"] (attachViewModel ["x", "y"] ⟨none, ⟨[]⟩⟩ 0) 0)).em.deliveries
        "x").count 0 = 0 := by
  have h := controller_double_attach_ignored ["x", "y"] ⟨[]⟩ 0
    (fun name => by simp [Emitter.deliveries]) (by decide)
  exact ⟨h.2.1 "x" (by decide), h.2.2.1 "x" (by decide)⟩

end SmartObjects
